import Mathlib

/-!
Verification development for the wac2wav WAC-format decoder.

The repository ships `wac2wavcmd.c`, whose long file comment specifies the
WAC container format (header, seek table, synchronization-checked blocks of
Golomb-coded delta frames) and whose `main` forwards two command-line
arguments to the decode routine `wac2wav_c`.  The decode routine itself is
declared in `wac2wav.h` and is not part of the sources here, so its
behaviour is modelled from the specification; `main` is embedded directly.

Conventions of the shallow embedding:
- the raw input is a list of bytes (`List Nat`, each `< 256` by masking);
- the variable-width bit fields of a block are read from a `List Bool`
  obtained by expanding the bytes least-significant bit first, which agrees
  with the little-endian 16-bit-word layout of the container;
- fallible reads return `Option`/`Except` values.
-/

/-- Interpret a list of bits, least-significant bit first, as a natural
number. -/
def bitsToNat : List Bool → Nat
  | [] => 0
  | b :: bs => (if b then 1 else 0) + 2 * bitsToNat bs

/-- Encode `v`'s low `n` bits as a list of bits, least-significant first. -/
def natToBits : Nat → Nat → List Bool
  | 0, _ => []
  | n + 1, v => (v % 2 = 1) :: natToBits n (v / 2)

/-- BitReader: read the next `n` bits as an unsigned integer, advancing the
cursor; fails if the stream is exhausted first. -/
def readBits (n : Nat) (bs : List Bool) : Option (Nat × List Bool) :=
  if n ≤ bs.length then some (bitsToNat (bs.take n), bs.drop n) else none

/-- BitReader: read bits one at a time until the terminating bit is found,
returning the count of bits read before the terminator (the Golomb quotient
unary code). -/
def readUnary : List Bool → Option (Nat × List Bool)
  | [] => none
  | false :: bs => some (0, bs)
  | true :: bs => (readUnary bs).map (fun p => (p.1 + 1, p.2))

/-- Expand one byte into its 8 bits, least-significant first. -/
def byteToBits (b : Nat) : List Bool := natToBits 8 b

/-- Expand a byte list into the bit stream drawn by the BitReader. -/
def bytesToBits (bs : List Nat) : List Bool := (bs.map byteToBits).flatten

/-- Interpret a little-endian list of bytes as a natural number. -/
def leVal : List Nat → Nat
  | [] => 0
  | b :: bs => b % 256 + 256 * leVal bs

/-- Two's-complement reinterpretation of a `w`-bit unsigned value. -/
def toSigned (w : Nat) (v : Nat) : Int :=
  if v < 2 ^ (w - 1) then (v : Int) else (v : Int) - 2 ^ w

/-- Error taxonomy of the decoder. -/
inductive DecodeError where
  | formatError
  | syncError
  | truncated
  deriving DecidableEq, Repr

/-- Lift an `Option` into `Except`, tagging failure with `e`. -/
def orErr {α : Type} (o : Option α) (e : DecodeError) : Except DecodeError α :=
  match o with
  | some a => .ok a
  | none => .error e

/-- The validated container descriptor produced from the 24-byte header. -/
structure ContainerHeader where
  version : Nat
  channelCount : Nat
  frameSize : Nat
  blockSize : Nat
  flags : Nat
  sampleRate : Nat
  sampleCount : Nat
  seekSize : Nat
  seekEntries : Nat
  deriving DecidableEq, Repr

/-- GPS data present flag (bit 5 of the flags field). -/
def ContainerHeader.gpsPresent (h : ContainerHeader) : Bool := h.flags.testBit 5

/-- Tag data present flag (bit 6 of the flags field). -/
def ContainerHeader.tagPresent (h : ContainerHeader) : Bool := h.flags.testBit 6

/-- The 4-byte magic "WAac" as ASCII byte values. -/
def wacMagic : List Nat := [0x57, 0x41, 0x61, 0x63]

/-- Modelled from the spec: the HeaderParser of the missing decode routine
`wac2wav_c`.  Reads the fixed 24-byte header, validates the 4-byte magic
"WAac" and `version ≤ 4` (failing with a format error otherwise), and
produces the container descriptor together with the unread remainder of the
byte stream.  All multi-byte fields are little-endian. -/
def parseHeader (bytes : List Nat) :
    Except DecodeError (ContainerHeader × List Nat) :=
  if 24 ≤ bytes.length then
    if bytes.take 4 = wacMagic ∧ bytes.getD 4 0 ≤ 4 then
      .ok
        ({ version := bytes.getD 4 0
           channelCount := bytes.getD 5 0
           frameSize := leVal [bytes.getD 6 0, bytes.getD 7 0]
           blockSize := leVal [bytes.getD 8 0, bytes.getD 9 0]
           flags := leVal [bytes.getD 10 0, bytes.getD 11 0]
           sampleRate := leVal [bytes.getD 12 0, bytes.getD 13 0,
             bytes.getD 14 0, bytes.getD 15 0]
           sampleCount := leVal [bytes.getD 16 0, bytes.getD 17 0,
             bytes.getD 18 0, bytes.getD 19 0]
           seekSize := leVal [bytes.getD 20 0, bytes.getD 21 0]
           seekEntries := leVal [bytes.getD 22 0, bytes.getD 23 0] },
         bytes.drop 24)
    else .error .formatError
  else .error .truncated

/-- Zigzag mapping of a Golomb-decoded magnitude to a signed delta:
even magnitude gives a non-negative delta `magnitude / 2`, odd magnitude a
negative delta `-((magnitude + 1) / 2)`. -/
def zigzag (mag : Nat) : Int :=
  if mag % 2 = 0 then ((mag / 2 : Nat) : Int) else -(((mag + 1) / 2 : Nat) : Int)

/-- Modelled from the spec: Golomb/Rice decoding of one delta in the missing
`FrameDecode` routine of `wac2wav_c`.  The quotient is the unary-prefix bit
count, the remainder the next `k` bits as an unsigned integer; the magnitude
`quotient * 2 ^ k + remainder` is zigzag-mapped to a signed delta. -/
def decodeDelta (k : Nat) (bs : List Bool) : Option (Int × List Bool) := do
  let (q, bs) ← readUnary bs
  let (r, bs) ← readBits k bs
  pure (zigzag (q * 2 ^ k + r), bs)

/-- Modelled from the spec: one channel's contribution at one sample
position.  With `remainderBits = 0` the channel produces "no new data": the
accumulator is unchanged and no bits are consumed.  Otherwise one Golomb
delta is decoded and added to the accumulator; the updated accumulator is
the reconstructed sample. -/
def channelStep (k : Nat) (acc : Int) (bs : List Bool) :
    Option (Int × List Bool) :=
  if k = 0 then some (acc, bs)
  else (decodeDelta k bs).map (fun p => (acc + p.1, p.2))

/-- Modelled from the spec: one sample position of a frame, decoding the
channels in interleaved order (channel 0 first).  Returns the updated
accumulators, whose entries are the reconstructed samples at this
position. -/
def stepChannels : List Nat → List Int → List Bool →
    Option (List Int × List Bool)
  | [], _, bs => some ([], bs)
  | k :: ks, acc :: accs, bs => do
    let (a, bs) ← channelStep k acc bs
    let (rest, bs) ← stepChannels ks accs bs
    pure (a :: rest, bs)
  | _ :: _, [], _ => none

/-- Modelled from the spec: the sample-position loop of a frame.  Produces
one row of reconstructed samples (one per channel) for each of the `n`
positions, threading the accumulators. -/
def framePositions : Nat → List Nat → List Int → List Bool →
    Option (List (List Int) × List Int × List Bool)
  | 0, _, accs, bs => some ([], accs, bs)
  | n + 1, ks, accs, bs => do
    let (accs2, bs) ← stepChannels ks accs bs
    let (rows, accs3, bs) ← framePositions n ks accs2 bs
    pure (accs2 :: rows, accs3, bs)

/-- Modelled from the spec: read the per-channel 4-bit `remainderBits`
values at the start of a frame. -/
def readRemainderWidths : Nat → List Bool → Option (List Nat × List Bool)
  | 0, bs => some ([], bs)
  | c + 1, bs => do
    let (k, bs) ← readBits 4 bs
    let (ks, bs) ← readRemainderWidths c bs
    pure (k :: ks, bs)

/-- Modelled from the spec: the missing `FrameDecode` routine of
`wac2wav_c`.  Reads a 4-bit remainder width per channel, then decodes
`frameSize` interleaved sample positions. -/
def decodeFrame (channels frameSize : Nat) (accs : List Int)
    (bs : List Bool) : Option (List (List Int) × List Int × List Bool) := do
  let (ks, bs) ← readRemainderWidths channels bs
  framePositions frameSize ks accs bs

/-- Modelled from the spec: decode `n` consecutive frames, threading the
accumulators and concatenating the sample rows. -/
def decodeFrames : Nat → Nat → Nat → List Int → List Bool →
    Option (List (List Int) × List Int × List Bool)
  | 0, _, _, accs, bs => some ([], accs, bs)
  | n + 1, channels, frameSize, accs, bs => do
    let (rows, accs, bs) ← decodeFrame channels frameSize accs bs
    let (rows2, accs2, bs2) ← decodeFrames n channels frameSize accs bs
    pure (rows ++ rows2, accs2, bs2)

/-- A decoded GPS fix in degrees; positive latitude is North, positive
longitude is West. -/
structure GPSFix where
  latDeg : ℚ
  lonDeg : ℚ
  deriving DecidableEq, Repr

/-- Modelled from the spec: read one GPS fix, a 25-bit two's-complement
signed latitude followed by a 26-bit two's-complement signed longitude,
each converted to degrees by dividing by 100000. -/
def readGps (bs : List Bool) : Option (GPSFix × List Bool) := do
  let (la, bs) ← readBits 25 bs
  let (lo, bs) ← readBits 26 bs
  pure ({ latDeg := (toSigned 25 la : ℚ) / 100000
          lonDeg := (toSigned 26 lo : ℚ) / 100000 }, bs)

/-- Modelled from the spec: a GPS fix is read exactly when the `gpsPresent`
flag is set and the block index is a multiple of `seekSize`; otherwise the
stream is untouched. -/
def readGpsIfPresent (hdr : ContainerHeader) (index : Nat) (bs : List Bool) :
    Option (Option GPSFix × List Bool) :=
  if hdr.gpsPresent ∧ index % hdr.seekSize = 0 then
    (readGps bs).map (fun p => (some p.1, p.2))
  else some (none, bs)

/-- Modelled from the spec: read the 4-bit tag, present on every block when
`tagPresent` is set. -/
def readTagIfPresent (hdr : ContainerHeader) (bs : List Bool) :
    Option (Option Nat × List Bool) :=
  if hdr.tagPresent then (readBits 4 bs).map (fun p => (some p.1, p.2))
  else some (none, bs)

/-- The fixed 4-byte block synchronization pattern. -/
def syncPattern : Nat := 0x00018000

/-- Modelled from the spec: the `decodeNext` routine of the missing
BlockDecoder.  Reads the fixed 4-byte synchronization pattern and the
4-byte block index and verifies the pattern equals `syncPattern` and the
index equals the expected running counter; any mismatch is a fatal
`syncError`.  Then the optional GPS fix and tag are read (and skipped) and
`blockSize` frames are decoded. -/
def decodeBlock (hdr : ContainerHeader) (index : Nat) (accs : List Int)
    (bs : List Bool) :
    Except DecodeError (List (List Int) × List Int × List Bool) := do
  let (pat, bs) ← orErr (readBits 32 bs) .truncated
  let (idx, bs) ← orErr (readBits 32 bs) .truncated
  if pat ≠ syncPattern ∨ idx ≠ index then .error .syncError
  else do
    let (_, bs) ← orErr (readGpsIfPresent hdr index bs) .truncated
    let (_, bs) ← orErr (readTagIfPresent hdr bs) .truncated
    orErr (decodeFrames hdr.blockSize hdr.channelCount hdr.frameSize accs bs)
      .truncated

/-- Modelled from the spec: decode `n` consecutive blocks, with the
expected block index starting at `index` and incrementing by exactly one
per block, threading the accumulators across block boundaries. -/
def decodeBlocks : Nat → ContainerHeader → Nat → List Int → List Bool →
    Except DecodeError (List (List Int) × List Int × List Bool)
  | 0, _, _, accs, bs => .ok ([], accs, bs)
  | n + 1, hdr, index, accs, bs => do
    let (rows, accs, bs) ← decodeBlock hdr index accs bs
    let (rows2, accs2, bs2) ← decodeBlocks n hdr (index + 1) accs bs
    pure (rows ++ rows2, accs2, bs2)

/-- Modelled from the spec: the top-level block loop of `wac2wav_c`.
Decodes blocks until the header's `sampleCount` samples per channel have
been emitted, truncating the final block's output to the declared count and
stopping even if further block data remains; `fuel` bounds the number of
iterations. -/
def decodeLoop : Nat → ContainerHeader → Nat → Nat → List Int → List Bool →
    Except DecodeError (List (List Int))
  | 0, _, _, _, _, _ => .error .truncated
  | fuel + 1, hdr, emitted, index, accs, bs =>
    if hdr.sampleCount ≤ emitted then .ok []
    else do
      let (rows, accs, bs) ← decodeBlock hdr index accs bs
      let keep := min rows.length (hdr.sampleCount - emitted)
      let rest ← decodeLoop fuel hdr (emitted + keep) (index + 1) accs bs
      pure (rows.take keep ++ rest)

/-- Modelled from the spec: the missing decode routine `wac2wav_c` applied
to the raw bytes of the source file.  Parses and validates the header,
skips the seek table (`seekEntries` 4-byte words), and runs the block loop
with all channel accumulators starting at zero; the result is the list of
reconstructed sample rows (one row of `channelCount` samples per sample
position). -/
def wacDecode (input : List Nat) : Except DecodeError (List (List Int)) :=
  match parseHeader input with
  | .error e => .error e
  | .ok (hdr, rest) =>
    decodeLoop (hdr.sampleCount + 1) hdr 0 0
      (List.replicate hdr.channelCount 0)
      (bytesToBits (rest.drop (hdr.seekEntries * 4)))

/-- Modelled from the spec: the decode routine `wac2wav_c` as invoked by
`main` on a source path and a destination path; `fs` maps a path to the
bytes of the file it names.  Returns exit status 0 on success and 1 on any
decode failure. -/
def wac2wav_c (fs : String → List Nat) (src _dst : String) : Int :=
  match wacDecode (fs src) with
  | .ok _ => 0
  | .error _ => 1

/-- Shallow embedding of `main` in `wac2wavcmd.c`.  It reads `argv[1]` and
`argv[2]` unconditionally (there is no argument-count check; `none` models
the undefined behaviour of dereferencing a missing argument), prints both
paths to the error stream, and returns the value of `wac2wav_c`.  The
result pairs the stderr text with the process exit code. -/
def cMain (fs : String → List Nat) (argv : List String) :
    Option (String × Int) := do
  let srcfile ← argv[1]?
  let destfile ← argv[2]?
  pure ("src: " ++ srcfile ++ ", dest: " ++ destfile ++ " \n",
    wac2wav_c fs srcfile destfile)

/-- The Golomb/Rice encoding of one delta with remainder width `k`:
`q` unary-prefix bits, a terminator, then `k` remainder bits. -/
def encodeDelta (k q r : Nat) : List Bool :=
  List.replicate q true ++ false :: natToBits k r

/-- A single-channel example container descriptor: frame size 2, one frame
per block, two samples in total, no GPS or tag data. -/
def exHeader : ContainerHeader :=
  { version := 4, channelCount := 1, frameSize := 2, blockSize := 1,
    flags := 0, sampleRate := 8000, sampleCount := 2, seekSize := 1,
    seekEntries := 0 }

/-- The bits of one block under `exHeader` carrying the given block index:
the synchronization pattern, the index, and one frame whose single channel
has `remainderBits = 0`. -/
def exBlockBits (index : Nat) : List Bool :=
  natToBits 32 syncPattern ++ natToBits 32 index ++ natToBits 4 0

/-- A complete well-formed example WAC file: the 24-byte header of
`exHeader`, no seek table, and one block (index 0, one zero-width frame)
padded to a whole byte. -/
def exFile : List Nat :=
  [0x57, 0x41, 0x61, 0x63, 4, 1, 2, 0, 1, 0, 0, 0,
   0x40, 0x1F, 0, 0, 2, 0, 0, 0, 1, 0, 0, 0,
   0x00, 0x80, 0x01, 0x00, 0, 0, 0, 0, 0]

/-- An example container descriptor with the `gpsPresent` flag set. -/
def gpsExHeader : ContainerHeader :=
  { version := 4, channelCount := 1, frameSize := 2, blockSize := 1,
    flags := 0x20, sampleRate := 8000, sampleCount := 2, seekSize := 1,
    seekEntries := 0 }

/-! ### Bit-level encoding lemmas -/

theorem bitsToNat_natToBits (n v : Nat) :
    bitsToNat (natToBits n v) = v % 2 ^ n := by
  induction n generalizing v with
  | zero => simp [natToBits, bitsToNat, Nat.mod_one]
  | succ n ih =>
    have hv : v % 2 ^ (n + 1) = v % 2 + 2 * (v / 2 % 2 ^ n) := by
      rw [pow_succ', Nat.mod_mul]
    rw [natToBits, bitsToNat, ih, hv]
    rcases Nat.mod_two_eq_zero_or_one v with h | h <;> simp [h]

theorem natToBits_length (n v : Nat) : (natToBits n v).length = n := by
  induction n generalizing v with
  | zero => rfl
  | succ n ih => simp [natToBits, ih]

theorem readBits_append (n : Nat) (l rest : List Bool) (h : l.length = n) :
    readBits n (l ++ rest) = some (bitsToNat l, rest) := by
  subst h
  rw [readBits, if_pos (by simp), List.take_left, List.drop_left]

theorem readBits_encode (n v : Nat) (rest : List Bool) :
    readBits n (natToBits n v ++ rest) = some (v % 2 ^ n, rest) := by
  rw [readBits_append n _ rest (natToBits_length n v), bitsToNat_natToBits]

theorem readUnary_encode (q : Nat) (rest : List Bool) :
    readUnary (List.replicate q true ++ false :: rest) = some (q, rest) := by
  induction q with
  | zero => rfl
  | succ q ih => simp [List.replicate_succ, readUnary, ih]

theorem decodeDelta_encode (k q r : Nat) (rest : List Bool) (h : r < 2 ^ k) :
    decodeDelta k (encodeDelta k q r ++ rest) =
      some (zigzag (q * 2 ^ k + r), rest) := by
  rw [encodeDelta, List.append_assoc, List.cons_append]
  rw [decodeDelta]
  rw [readUnary_encode]
  simp only [Option.bind_eq_bind, Option.some_bind]
  rw [readBits_encode, Nat.mod_eq_of_lt h]
  rfl

/-! ### Structural lemmas about the frame decoder -/

theorem stepChannels_length (ks : List Nat) (accs : List Int) (bs : List Bool)
    (p : List Int × List Bool) (h : stepChannels ks accs bs = some p) :
    p.1.length = ks.length := by
  induction ks generalizing accs bs p with
  | nil =>
    simp only [stepChannels, Option.some_inj] at h
    simp [← h]
  | cons k ks ih =>
    cases accs with
    | nil => simp [stepChannels] at h
    | cons acc accs =>
      cases hc : channelStep k acc bs with
      | none => simp [stepChannels, hc] at h
      | some q =>
        obtain ⟨a, bs1⟩ := q
        cases hs : stepChannels ks accs bs1 with
        | none => simp [stepChannels, hc, hs] at h
        | some r =>
          obtain ⟨rest, bs2⟩ := r
          simp only [stepChannels, hc, hs, Option.bind_eq_bind,
            Option.some_bind, Option.pure_def, Option.some_inj] at h
          have := ih accs bs1 (rest, bs2) hs
          simp [← h, this]

theorem framePositions_length (n : Nat) (ks : List Nat) (accs : List Int)
    (bs : List Bool) (t : List (List Int) × List Int × List Bool)
    (h : framePositions n ks accs bs = some t) : t.1.length = n := by
  induction n generalizing accs bs t with
  | zero =>
    simp only [framePositions, Option.some_inj] at h
    simp [← h]
  | succ n ih =>
    cases hstep : stepChannels ks accs bs with
    | none => simp [framePositions, hstep] at h
    | some q =>
      obtain ⟨accs2, bs1⟩ := q
      cases hrec : framePositions n ks accs2 bs1 with
      | none => simp [framePositions, hstep, hrec] at h
      | some r =>
        obtain ⟨rows, accs3, bs2⟩ := r
        simp only [framePositions, hstep, hrec, Option.bind_eq_bind,
          Option.some_bind, Option.pure_def, Option.some_inj] at h
        have := ih accs2 bs1 (rows, accs3, bs2) hrec
        simp [← h, this]

theorem framePositions_row_length (n : Nat) (ks : List Nat) (accs : List Int)
    (bs : List Bool) (t : List (List Int) × List Int × List Bool)
    (h : framePositions n ks accs bs = some t) :
    ∀ row ∈ t.1, row.length = ks.length := by
  induction n generalizing accs bs t with
  | zero =>
    simp only [framePositions, Option.some_inj] at h
    simp [← h]
  | succ n ih =>
    cases hstep : stepChannels ks accs bs with
    | none => simp [framePositions, hstep] at h
    | some q =>
      obtain ⟨accs2, bs1⟩ := q
      cases hrec : framePositions n ks accs2 bs1 with
      | none => simp [framePositions, hstep, hrec] at h
      | some r =>
        obtain ⟨rows, accs3, bs2⟩ := r
        simp only [framePositions, hstep, hrec, Option.bind_eq_bind,
          Option.some_bind, Option.pure_def, Option.some_inj] at h
        intro row hrow
        rw [← h] at hrow
        simp only [List.mem_cons] at hrow
        rcases hrow with rfl | hrow
        · exact stepChannels_length ks accs bs (row, bs1) hstep
        · exact ih accs2 bs1 (rows, accs3, bs2) hrec row hrow

theorem stepChannels_zero_channel (ks1 ks2 : List Nat) (accs1 accs2 : List Int)
    (a : Int) (bs : List Bool) (h : accs1.length = ks1.length) :
    stepChannels (ks1 ++ 0 :: ks2) (accs1 ++ a :: accs2) bs =
      (stepChannels (ks1 ++ ks2) (accs1 ++ accs2) bs).map
        (fun p => (p.1.take ks1.length ++ a :: p.1.drop ks1.length, p.2)) := by
  induction ks1 generalizing accs1 bs with
  | nil =>
    have h0 : accs1 = [] := by simpa using h
    subst h0
    simp only [List.nil_append, stepChannels, channelStep, if_pos rfl,
      Option.bind_eq_bind, Option.some_bind]
    cases hs : stepChannels ks2 accs2 bs with
    | none => simp [hs]
    | some p => cases p; simp [hs]
  | cons k ks1 ih =>
    cases accs1 with
    | nil => simp at h
    | cons b accs1 =>
      have h1 : accs1.length = ks1.length := by simpa using h
      simp only [List.cons_append]
      cases hc : channelStep k b bs with
      | none => simp [stepChannels, hc]
      | some q =>
        obtain ⟨a1, bs1⟩ := q
        cases hs : stepChannels (ks1 ++ ks2) (accs1 ++ accs2) bs1 with
        | none =>
          have hz := ih accs1 bs1 h1
          rw [hs] at hz
          simp [stepChannels, hc, hs, hz]
        | some p =>
          obtain ⟨res, bs2⟩ := p
          have hz := ih accs1 bs1 h1
          rw [hs] at hz
          simp [stepChannels, hc, hs, hz, List.take_succ_cons,
            List.drop_succ_cons]

theorem framePositions_zero_channel (n : Nat) (ks1 ks2 : List Nat)
    (accs1 accs2 : List Int) (a : Int) (bs : List Bool)
    (h : accs1.length = ks1.length) :
    framePositions n (ks1 ++ 0 :: ks2) (accs1 ++ a :: accs2) bs =
      (framePositions n (ks1 ++ ks2) (accs1 ++ accs2) bs).map
        (fun t =>
          (t.1.map (fun row =>
            row.take ks1.length ++ a :: row.drop ks1.length),
           t.2.1.take ks1.length ++ a :: t.2.1.drop ks1.length, t.2.2)) := by
  induction n generalizing accs1 accs2 bs with
  | zero =>
    simp [framePositions, ← h, List.take_left, List.drop_left]
  | succ n ih =>
    have hz := stepChannels_zero_channel ks1 ks2 accs1 accs2 a bs h
    cases hstep : stepChannels (ks1 ++ ks2) (accs1 ++ accs2) bs with
    | none =>
      rw [hstep] at hz
      simp [framePositions, hz, hstep]
    | some q =>
      obtain ⟨accsMid, bs1⟩ := q
      rw [hstep] at hz
      have hlen : accsMid.length = ks1.length + ks2.length := by
        have hl := stepChannels_length _ _ _ _ hstep
        simpa using hl
      have htake : (accsMid.take ks1.length).length = ks1.length := by
        simp [List.length_take, hlen]
      have ih2 := ih (accsMid.take ks1.length) (accsMid.drop ks1.length) bs1
        htake
      rw [List.take_append_drop] at ih2
      cases hrec : framePositions n (ks1 ++ ks2) accsMid bs1 with
      | none =>
        rw [hrec] at ih2
        simp [framePositions, hz, ih2, hrec, hstep]
      | some r =>
        obtain ⟨rows, accs3, bs2⟩ := r
        rw [hrec] at ih2
        simp [framePositions, hz, ih2, hrec, hstep]

theorem stepChannels_replicate_zero (accs : List Int) (bs : List Bool) :
    stepChannels (List.replicate accs.length 0) accs bs = some (accs, bs) := by
  induction accs generalizing bs with
  | nil => rfl
  | cons a accs ih =>
    simp [List.replicate_succ, stepChannels, channelStep, ih]

theorem framePositions_replicate_zero (n : Nat) (accs : List Int)
    (bs : List Bool) :
    framePositions n (List.replicate accs.length 0) accs bs =
      some (List.replicate n accs, accs, bs) := by
  induction n with
  | zero => rfl
  | succ n ih =>
    simp [framePositions, stepChannels_replicate_zero, ih,
      List.replicate_succ]

theorem decodeFrames_add (m n channels frameSize : Nat) (accs : List Int)
    (bs : List Bool) :
    decodeFrames (m + n) channels frameSize accs bs =
      (decodeFrames m channels frameSize accs bs).bind
        (fun t => (decodeFrames n channels frameSize t.2.1 t.2.2).map
          (fun u => (t.1 ++ u.1, u.2))) := by
  induction m generalizing accs bs with
  | zero =>
    simp only [Nat.zero_add, decodeFrames, Option.some_bind]
    cases hn : decodeFrames n channels frameSize accs bs with
    | none => simp
    | some u => obtain ⟨r, a2, b2⟩ := u; simp
  | succ m ih =>
    have hadd : m + 1 + n = (m + n) + 1 := by omega
    rw [hadd]
    cases hf : decodeFrame channels frameSize accs bs with
    | none => simp [decodeFrames, hf]
    | some t =>
      obtain ⟨rows, a1, b1⟩ := t
      simp only [decodeFrames, hf, Option.bind_eq_bind, Option.some_bind]
      rw [ih a1 b1]
      cases hm : decodeFrames m channels frameSize a1 b1 with
      | none => simp
      | some t2 =>
        obtain ⟨rows2, a2, b2⟩ := t2
        cases hn : decodeFrames n channels frameSize a2 b2 with
        | none => simp [hn]
        | some u =>
          obtain ⟨rows3, a3, b3⟩ := u
          simp [hn, List.append_assoc]

theorem decodeBlocks_add (m n : Nat) (hdr : ContainerHeader) (index : Nat)
    (accs : List Int) (bs : List Bool) :
    decodeBlocks (m + n) hdr index accs bs =
      (decodeBlocks m hdr index accs bs).bind
        (fun t => (decodeBlocks n hdr (index + m) t.2.1 t.2.2).map
          (fun u => (t.1 ++ u.1, u.2))) := by
  induction m generalizing index accs bs with
  | zero =>
    simp only [Nat.zero_add, Nat.add_zero, decodeBlocks]
    cases hn : decodeBlocks n hdr index accs bs with
    | error e => simp [Except.bind, Except.map, hn]
    | ok u =>
      obtain ⟨r, a2, b2⟩ := u
      simp [Except.bind, Except.map, hn]
  | succ m ih =>
    have hadd : m + 1 + n = (m + n) + 1 := by omega
    rw [hadd]
    cases hb : decodeBlock hdr index accs bs with
    | error e =>
      simp [decodeBlocks, hb, Bind.bind, Except.bind]
    | ok t =>
      obtain ⟨rows, a1, b1⟩ := t
      simp only [decodeBlocks, hb, Bind.bind, Except.bind]
      rw [ih (index + 1) a1 b1]
      have hidx : index + 1 + m = index + (m + 1) := by omega
      rw [hidx]
      cases hm : decodeBlocks m hdr (index + 1) a1 b1 with
      | error e => simp [Except.bind, Except.map, hm]
      | ok t2 =>
        obtain ⟨rows2, a2, b2⟩ := t2
        cases hn : decodeBlocks n hdr (index + (m + 1)) a2 b2 with
        | error e =>
          simp [Except.bind, Except.map, Pure.pure, Except.pure, hm, hn]
        | ok u =>
          obtain ⟨rows3, a3, b3⟩ := u
          simp [Except.bind, Except.map, Pure.pure, Except.pure, hm, hn,
            List.append_assoc]

theorem decodeBlock_mismatch (hdr : ContainerHeader) (index : Nat)
    (accs : List Int) (bs bs1 bs2 : List Bool) (p i : Nat)
    (h1 : readBits 32 bs = some (p, bs1))
    (h2 : readBits 32 bs1 = some (i, bs2))
    (hbad : p ≠ syncPattern ∨ i ≠ index) :
    decodeBlock hdr index accs bs = .error .syncError := by
  simp [decodeBlock, h1, h2, orErr, Bind.bind, Except.bind, hbad]

theorem decodeLoop_length (fuel : Nat) (hdr : ContainerHeader)
    (emitted index : Nat) (accs : List Int) (bs : List Bool)
    (out : List (List Int)) (hle : emitted ≤ hdr.sampleCount)
    (h : decodeLoop fuel hdr emitted index accs bs = .ok out) :
    out.length = hdr.sampleCount - emitted := by
  induction fuel generalizing emitted index accs bs out with
  | zero => simp [decodeLoop] at h
  | succ fuel ih =>
    by_cases hstop : hdr.sampleCount ≤ emitted
    · have heq : emitted = hdr.sampleCount := Nat.le_antisymm hle hstop
      rw [decodeLoop, if_pos hstop] at h
      have hout : out = [] := by
        simpa using h.symm
      simp [hout, heq]
    · rw [decodeLoop, if_neg hstop] at h
      cases hb : decodeBlock hdr index accs bs with
      | error e => simp [hb, Bind.bind, Except.bind] at h
      | ok t =>
        obtain ⟨rows, accs2, bs2⟩ := t
        rw [hb] at h
        cases hr : decodeLoop fuel hdr
            (emitted + min rows.length (hdr.sampleCount - emitted))
            (index + 1) accs2 bs2 with
        | error e =>
          simp [Bind.bind, Except.bind, hr] at h
        | ok rest =>
          simp only [Bind.bind, Except.bind, hr, Pure.pure, Except.pure,
            Except.ok.injEq] at h
          have hkeep : min rows.length (hdr.sampleCount - emitted) ≤
              hdr.sampleCount - emitted := Nat.min_le_right _ _
          have hle2 : emitted + min rows.length (hdr.sampleCount - emitted) ≤
              hdr.sampleCount := by omega
          have hrest := ih _ _ accs2 bs2 rest hle2 hr
          have htk : (rows.take
              (min rows.length (hdr.sampleCount - emitted))).length =
              min rows.length (hdr.sampleCount - emitted) := by
            simp [List.length_take]
          rw [← h]
          rw [List.length_append, htk, hrest]
          omega

/-! ### Claim theorems -/

/-- C1: for a channel with `remainderBits = k > 0`, a delta is Golomb/Rice
decoded as quotient `q` (unary-prefix bit count) and remainder `r` (next
`k` bits), giving magnitude `q * 2 ^ k + r`; the magnitude maps to a signed
delta by the standard zigzag mapping (even magnitude to `mag / 2`, odd
magnitude to `-((mag + 1) / 2)`); the accumulator is updated by adding the
delta, and the updated accumulator is the reconstructed sample emitted for
the position. -/
theorem golombDeltaDecode_correct (k q r : Nat) (acc : Int)
    (rest : List Bool) (hk : k ≠ 0) (hr : r < 2 ^ k) :
    channelStep k acc (encodeDelta k q r ++ rest) =
      some (acc + zigzag (q * 2 ^ k + r), rest) ∧
    (∀ mag : Nat, mag % 2 = 0 → zigzag mag = ((mag / 2 : Nat) : Int)) ∧
    (∀ mag : Nat, mag % 2 = 1 → zigzag mag = -(((mag + 1) / 2 : Nat) : Int)) ∧
    framePositions 1 [k] [acc] (encodeDelta k q r ++ rest) =
      some ([[acc + zigzag (q * 2 ^ k + r)]],
        [acc + zigzag (q * 2 ^ k + r)], rest) := by
  have hcs : channelStep k acc (encodeDelta k q r ++ rest) =
      some (acc + zigzag (q * 2 ^ k + r), rest) := by
    rw [channelStep, if_neg hk, decodeDelta_encode k q r rest hr]
    rfl
  refine ⟨hcs, ?_, ?_, ?_⟩
  · intro mag hm
    simp [zigzag, hm]
  · intro mag hm
    simp [zigzag, hm]
  · simp [framePositions, stepChannels, hcs]

/-- C1 witness: the theorem applied with `k = 2`, `q = 1`, `r = 3`,
accumulator 5 (magnitude 7, delta −4, reconstructed sample 1). -/
theorem golombDeltaDecode_correct_witness :
    channelStep 2 (5 : Int) (encodeDelta 2 1 3 ++ []) =
      some (5 + zigzag (1 * 2 ^ 2 + 3), []) :=
  (golombDeltaDecode_correct 2 1 3 5 [] (by decide) (by decide)).1

/-- C2: `decodeBlock` reads a 4-byte synchronization pattern and a 4-byte
block index; if the pattern differs from the constant `0x00018000` or the
index differs from the expected running counter, decoding fails with
`syncError`; `decodeBlocks` increments the expected index by one per block,
so a stream whose block indices run 0 then 2 fails with `syncError` at the
second block while its first block alone decodes successfully. -/
theorem blockSync_enforced (hdr : ContainerHeader) (index : Nat)
    (accs : List Int) (bs bs1 bs2 : List Bool) (p i : Nat)
    (h1 : readBits 32 bs = some (p, bs1))
    (h2 : readBits 32 bs1 = some (i, bs2))
    (hbad : p ≠ syncPattern ∨ i ≠ index) :
    decodeBlock hdr index accs bs = .error .syncError ∧
    decodeBlocks 2 exHeader 0 [0] (exBlockBits 0 ++ exBlockBits 2) =
      .error .syncError ∧
    decodeBlocks 1 exHeader 0 [0] (exBlockBits 0) =
      .ok ([[0], [0]], [0], []) := by
  refine ⟨decodeBlock_mismatch hdr index accs bs bs1 bs2 p i h1 h2 hbad,
    ?_, ?_⟩
  · set_option maxRecDepth 10000 in rfl
  · set_option maxRecDepth 10000 in rfl

/-- C2 witness: the theorem applied to a stream starting with pattern 0 and
index 0 at expected index 1. -/
theorem blockSync_enforced_witness :
    decodeBlock exHeader 1 [0] (natToBits 32 0 ++ natToBits 32 0) =
      .error .syncError :=
  (blockSync_enforced exHeader 1 [0] (natToBits 32 0 ++ natToBits 32 0)
    (natToBits 32 0) [] 0 0 (by decide) (by decide)
    (Or.inl (by decide))).1

/-- C3: for a stream holding at least the 24-byte header, parsing fails
with `formatError` when the first 4 bytes differ from the magic "WAac" or
the version byte exceeds 4; otherwise the header parses into the container
descriptor with its little-endian fields, leaving the rest of the
stream. -/
theorem headerValidation (bytes : List Nat) (h24 : 24 ≤ bytes.length) :
    (bytes.take 4 ≠ wacMagic ∨ 4 < bytes.getD 4 0 →
      parseHeader bytes = .error .formatError) ∧
    (bytes.take 4 = wacMagic → bytes.getD 4 0 ≤ 4 →
      parseHeader bytes = .ok
        ({ version := bytes.getD 4 0
           channelCount := bytes.getD 5 0
           frameSize := leVal [bytes.getD 6 0, bytes.getD 7 0]
           blockSize := leVal [bytes.getD 8 0, bytes.getD 9 0]
           flags := leVal [bytes.getD 10 0, bytes.getD 11 0]
           sampleRate := leVal [bytes.getD 12 0, bytes.getD 13 0,
             bytes.getD 14 0, bytes.getD 15 0]
           sampleCount := leVal [bytes.getD 16 0, bytes.getD 17 0,
             bytes.getD 18 0, bytes.getD 19 0]
           seekSize := leVal [bytes.getD 20 0, bytes.getD 21 0]
           seekEntries := leVal [bytes.getD 22 0, bytes.getD 23 0] },
         bytes.drop 24)) := by
  constructor
  · intro hbad
    rw [parseHeader, if_pos h24, if_neg]
    rintro ⟨hm, hv⟩
    rcases hbad with hb | hb
    · exact hb hm
    · omega
  · intro hm hv
    rw [parseHeader, if_pos h24, if_pos ⟨hm, hv⟩]

/-- C3 witness: the failure branch applied to `exFile` with its magic's
first byte corrupted. -/
theorem headerValidation_witness :
    parseHeader (0x58 :: exFile.drop 1) = .error .formatError :=
  (headerValidation (0x58 :: exFile.drop 1) (by decide)).1
    (Or.inl (by decide))

theorem getD_insert (l1 l2 : List Int) (a : Int) :
    (l1 ++ a :: l2).getD l1.length 0 = a := by
  rw [List.getD_eq_getElem?_getD, List.getElem?_append_right (Nat.le_refl _)]
  simp

/-- C4: a frame channel whose 4-bit `remainderBits` is 0 contributes no
bits at any sample position — decoding with that channel present consumes
exactly the bits consumed with the channel removed — and every one of the
`frameSize` emitted rows carries the channel's untouched accumulator value
`a` at that channel's position. -/
theorem zeroRemainder_channel (n : Nat) (ks1 ks2 : List Nat)
    (accs1 accs2 : List Int) (a : Int) (bs : List Bool)
    (h : accs1.length = ks1.length) :
    framePositions n (ks1 ++ 0 :: ks2) (accs1 ++ a :: accs2) bs =
      (framePositions n (ks1 ++ ks2) (accs1 ++ accs2) bs).map
        (fun t => (t.1.map (fun row =>
            row.take ks1.length ++ a :: row.drop ks1.length),
          t.2.1.take ks1.length ++ a :: t.2.1.drop ks1.length, t.2.2)) ∧
    (∀ t, framePositions n (ks1 ++ 0 :: ks2) (accs1 ++ a :: accs2) bs =
        some t →
      t.1.length = n ∧ ∀ row ∈ t.1, row.getD ks1.length 0 = a) := by
  have hins := framePositions_zero_channel n ks1 ks2 accs1 accs2 a bs h
  refine ⟨hins, ?_⟩
  intro t ht
  refine ⟨framePositions_length _ _ _ _ t ht, ?_⟩
  intro row hrow
  rw [hins] at ht
  cases hbase : framePositions n (ks1 ++ ks2) (accs1 ++ accs2) bs with
  | none => rw [hbase] at ht; simp at ht
  | some u =>
    rw [hbase] at ht
    simp only [Option.map_some', Option.some_inj] at ht
    rw [← ht] at hrow
    simp only [List.mem_map] at hrow
    obtain ⟨r, hr, hrEq⟩ := hrow
    have hrl : r.length = (ks1 ++ ks2).length :=
      framePositions_row_length _ _ _ _ u hbase r hr
    have htl : (r.take ks1.length).length = ks1.length := by
      simp only [List.length_take, hrl, List.length_append]
      omega
    have hg := getD_insert (r.take ks1.length) (r.drop ks1.length) a
    rw [htl] at hg
    rw [← hrEq]
    exact hg

/-- C4 witness: a 2-channel frame whose first channel has width 0 and whose
second has width 2 leaves channel 0 at its accumulator value 7 at both
positions while channel 1 decodes its two deltas. -/
theorem zeroRemainder_channel_witness :
    framePositions 2 [0, 2] [(7 : Int), 100]
        (encodeDelta 2 0 1 ++ encodeDelta 2 0 2) =
      some ([[7, 99], [7, 100]], [7, 100], []) := by
  have h := (zeroRemainder_channel 2 [] [2] [] [100] 7
    (encodeDelta 2 0 1 ++ encodeDelta 2 0 2) rfl).1
  simp only [List.nil_append] at h
  rw [h]
  set_option maxRecDepth 10000 in rfl

/-- C5: in a 2-channel frame with both remainder widths positive, the
deltas of one sample position are consumed in channel order — channel 0's
encoded delta, then channel 1's, with the updated accumulators landing in
the same order (never swapped) — and the position loop fully consumes
position `i` (both channels) before advancing to position `i + 1`. -/
theorem interleaved_order (k0 k1 q0 r0 q1 r1 : Nat) (a0 a1 : Int)
    (rest : List Bool) (n : Nat) (ks : List Nat) (accs : List Int)
    (bs : List Bool) (hk0 : k0 ≠ 0) (hk1 : k1 ≠ 0)
    (hr0 : r0 < 2 ^ k0) (hr1 : r1 < 2 ^ k1) :
    stepChannels [k0, k1] [a0, a1]
        (encodeDelta k0 q0 r0 ++ encodeDelta k1 q1 r1 ++ rest) =
      some ([a0 + zigzag (q0 * 2 ^ k0 + r0),
             a1 + zigzag (q1 * 2 ^ k1 + r1)], rest) ∧
    framePositions (n + 1) ks accs bs =
      (stepChannels ks accs bs).bind (fun p =>
        (framePositions n ks p.1 p.2).map
          (fun t => (p.1 :: t.1, t.2.1, t.2.2))) := by
  constructor
  · have h0 : channelStep k0 a0
        (encodeDelta k0 q0 r0 ++ (encodeDelta k1 q1 r1 ++ rest)) =
        some (a0 + zigzag (q0 * 2 ^ k0 + r0),
          encodeDelta k1 q1 r1 ++ rest) := by
      rw [channelStep, if_neg hk0,
        decodeDelta_encode k0 q0 r0 (encodeDelta k1 q1 r1 ++ rest) hr0]
      rfl
    have h1 : channelStep k1 a1 (encodeDelta k1 q1 r1 ++ rest) =
        some (a1 + zigzag (q1 * 2 ^ k1 + r1), rest) := by
      rw [channelStep, if_neg hk1, decodeDelta_encode k1 q1 r1 rest hr1]
      rfl
    rw [List.append_assoc]
    simp [stepChannels, h0, h1]
  · cases hs : stepChannels ks accs bs with
    | none => simp [framePositions, hs]
    | some p =>
      obtain ⟨accs2, bs1⟩ := p
      cases hr : framePositions n ks accs2 bs1 with
      | none => simp [framePositions, hs, hr]
      | some t =>
        obtain ⟨rows, a3, b3⟩ := t
        simp [framePositions, hs, hr]

/-- C5 witness: distinguishable magnitudes per channel (channel 0 decodes
delta −1 from magnitude 1, channel 1 decodes delta −6 from magnitude 11):
the buffers land unswapped as 10 − 1 = 9 and 20 − 6 = 14. -/
theorem interleaved_order_witness :
    stepChannels [1, 2] [(10 : Int), 20]
        (encodeDelta 1 0 1 ++ encodeDelta 2 2 3 ++ [true, false]) =
      some ([10 + zigzag (0 * 2 ^ 1 + 1), 20 + zigzag (2 * 2 ^ 2 + 3)],
        [true, false]) :=
  (interleaved_order 1 2 0 1 2 3 10 20 [true, false] 0 [] [] []
    (by decide) (by decide) (by decide) (by decide)).1

/-- C7: channel accumulators persist for the whole decode — the final
accumulators of the first `m` frames (respectively blocks) are exactly the
initial accumulators of the following `n`, with no reset at any frame or
block boundary — and an empty frame (all channels at `remainderBits = 0`)
leaves every accumulator unchanged, so accumulators are updated only by
non-empty frames. -/
theorem accumulator_persistence (m n channels frameSize : Nat)
    (hdr : ContainerHeader) (index : Nat) (accs : List Int)
    (bs : List Bool) :
    decodeFrames (m + n) channels frameSize accs bs =
      (decodeFrames m channels frameSize accs bs).bind
        (fun t => (decodeFrames n channels frameSize t.2.1 t.2.2).map
          (fun u => (t.1 ++ u.1, u.2))) ∧
    decodeBlocks (m + n) hdr index accs bs =
      (decodeBlocks m hdr index accs bs).bind
        (fun t => (decodeBlocks n hdr (index + m) t.2.1 t.2.2).map
          (fun u => (t.1 ++ u.1, u.2))) ∧
    framePositions n (List.replicate accs.length 0) accs bs =
      some (List.replicate n accs, accs, bs) :=
  ⟨decodeFrames_add m n channels frameSize accs bs,
   decodeBlocks_add m n hdr index accs bs,
   framePositions_replicate_zero n accs bs⟩

theorem gps_example_value :
    (readGps (natToBits 25 4200000 ++ natToBits 26 63608864)).map Prod.fst =
      some { latDeg := 42, lonDeg := -35 } := by
  have h1 : readBits 25 (natToBits 25 4200000 ++ natToBits 26 63608864) =
      some (4200000, natToBits 26 63608864) := by
    rw [readBits_encode]
    norm_num
  have h2 : readBits 26 (natToBits 26 63608864) = some (63608864, []) := by
    have h := readBits_encode 26 63608864 []
    rw [List.append_nil] at h
    rw [h]
    norm_num
  simp [readGps, h1, h2, toSigned, GPSFix.mk.injEq]
  norm_num

/-- C6 counterexample: under the spec's convention that positive longitude
means West, "35.00000°W" is the fix with `lonDeg = 35`; the example field
pair (latitude 4200000, longitude −3500000 encoded as 63608864 in 26-bit
two's complement) does not decode to it — the longitude decodes to −35
degrees. -/
theorem gps_example_not_west :
    (readGps (natToBits 25 4200000 ++ natToBits 26 63608864)).map Prod.fst ≠
      some { latDeg := 42, lonDeg := 35 } := by
  rw [gps_example_value]
  simp only [ne_eq, Option.some_inj, GPSFix.mk.injEq, not_and]
  intro _
  norm_num

/-- C6 (amended): a GPS fix is read if and only if the `gpsPresent` flag is
set and the block index is a multiple of `seekSize` (block 0 included); it
is a 25-bit two's-complement signed latitude followed by a 26-bit
two's-complement signed longitude, each divided by 100000 to give degrees,
positive meaning North latitude and West longitude; the example pair
(latitude 4200000, longitude −3500000) decodes to 42.00000 degrees North
and −35 degrees longitude, i.e. 35.00000 degrees East under the
positive-means-West convention. -/
theorem gps_fix_spec (hdr : ContainerHeader) (index : Nat)
    (bs bs1 bs2 : List Bool) (la lo : Nat)
    (hla : readBits 25 bs = some (la, bs1))
    (hlo : readBits 26 bs1 = some (lo, bs2)) :
    readGps bs = some ({ latDeg := (toSigned 25 la : ℚ) / 100000,
                         lonDeg := (toSigned 26 lo : ℚ) / 100000 }, bs2) ∧
    (hdr.gpsPresent ∧ index % hdr.seekSize = 0 →
      readGpsIfPresent hdr index bs =
        (readGps bs).map (fun p => (some p.1, p.2))) ∧
    (¬(hdr.gpsPresent = true ∧ index % hdr.seekSize = 0) →
      readGpsIfPresent hdr index bs = some (none, bs)) ∧
    (readGps (natToBits 25 4200000 ++ natToBits 26 63608864)).map Prod.fst =
      some { latDeg := 42, lonDeg := -35 } ∧
    (63608864 : Int) - 2 ^ 26 = -3500000 := by
  refine ⟨?_, ?_, ?_, gps_example_value, by norm_num⟩
  · simp [readGps, hla, hlo]
  · intro hc
    rw [readGpsIfPresent, if_pos hc]
  · intro hc
    rw [readGpsIfPresent, if_neg hc]

/-- C6 witness: the amended theorem applied to the example bit pattern
under a header with `gpsPresent` set and `seekSize = 1` at block 0. -/
theorem gps_fix_spec_witness :
    readGps (natToBits 25 4200000 ++ natToBits 26 63608864) =
      some ({ latDeg := (toSigned 25 4200000 : ℚ) / 100000,
              lonDeg := (toSigned 26 63608864 : ℚ) / 100000 }, []) :=
  (gps_fix_spec gpsExHeader 0
    (natToBits 25 4200000 ++ natToBits 26 63608864)
    (natToBits 26 63608864) [] 4200000 63608864
    (by set_option maxRecDepth 10000 in rfl)
    (by set_option maxRecDepth 10000 in rfl)).1

/-- C8: when the whole decode succeeds, the number of emitted sample rows
(one row per sample position, each with one sample per channel) equals the
header's `sampleCount` field, and the block loop stops once the count is
reached, succeeding with no further output whatever block data remains in
the stream. -/
theorem sampleCount_exact (input : List Nat) (hdr : ContainerHeader)
    (rest : List Nat) (out : List (List Int))
    (hp : parseHeader input = .ok (hdr, rest))
    (hd : wacDecode input = .ok out) :
    out.length = hdr.sampleCount ∧
    (∀ (fuel emitted index : Nat) (accs : List Int) (bs : List Bool),
      hdr.sampleCount ≤ emitted →
      decodeLoop (fuel + 1) hdr emitted index accs bs = .ok []) := by
  constructor
  · simp only [wacDecode, hp] at hd
    have h := decodeLoop_length (hdr.sampleCount + 1) hdr 0 0
      (List.replicate hdr.channelCount 0)
      (bytesToBits (rest.drop (hdr.seekEntries * 4))) out
      (Nat.zero_le _) hd
    simpa using h
  · intro fuel emitted index accs bs hge
    rw [decodeLoop, if_pos hge]

/-- C8 witness: the theorem applied to the complete example file, whose two
decoded rows match its declared sample count of 2. -/
theorem sampleCount_exact_witness :
    ([[0], [0]] : List (List Int)).length = exHeader.sampleCount :=
  (sampleCount_exact exFile exHeader (exFile.drop 24) [[0], [0]]
    (by set_option maxRecDepth 10000 in rfl)
    (by set_option maxRecDepth 10000 in rfl)).1

theorem cMain_eq_of_len (fs : String → List Nat) (argv : List String)
    (h : 3 ≤ argv.length) :
    cMain fs argv = some
      ("src: " ++ argv.getD 1 "" ++ ", dest: " ++ argv.getD 2 "" ++ " \n",
       wac2wav_c fs (argv.getD 1 "") (argv.getD 2 "")) := by
  have e1 : argv[1]? = some (argv.getD 1 "") := by
    rw [List.getD_eq_getElem?_getD]
    cases hx : argv[1]? with
    | none =>
      exfalso
      rw [List.getElem?_eq_none_iff] at hx
      omega
    | some v => rfl
  have e2 : argv[2]? = some (argv.getD 2 "") := by
    rw [List.getD_eq_getElem?_getD]
    cases hx : argv[2]? with
    | none =>
      exfalso
      rw [List.getElem?_eq_none_iff] at hx
      omega
    | some v => rfl
  simp only [cMain, e1, e2, Option.bind_eq_bind, Option.some_bind,
    Option.pure_def]

theorem cMain_eq_none_of_len (fs : String → List Nat) (argv : List String)
    (h : argv.length < 3) : cMain fs argv = none := by
  rcases Nat.lt_or_ge argv.length 2 with h2 | h2
  · have e1 : argv[1]? = none := by
      rw [List.getElem?_eq_none_iff]
      omega
    simp [cMain, e1]
  · have e2 : argv[2]? = none := by
      rw [List.getElem?_eq_none_iff]
      omega
    cases hx : argv[1]? with
    | none => simp [cMain, hx]
    | some v => simp [cMain, hx, e2]

/-- C9: with at least two command-line arguments after the program name,
`main` passes exactly `argv[1]` (source path) and `argv[2]` (destination
path) to `wac2wav_c`, and the process exit code is `wac2wav_c`'s return
value, which is 0 exactly when the decode succeeds and non-zero on any
decode failure. -/
theorem main_forwards_args (fs : String → List Nat) (argv : List String)
    (h : 3 ≤ argv.length) :
    cMain fs argv = some
      ("src: " ++ argv.getD 1 "" ++ ", dest: " ++ argv.getD 2 "" ++ " \n",
       wac2wav_c fs (argv.getD 1 "") (argv.getD 2 "")) ∧
    (∀ src dst, wac2wav_c fs src dst = 0 ↔
      ∃ o, wacDecode (fs src) = .ok o) ∧
    (∀ src dst e, wacDecode (fs src) = .error e →
      wac2wav_c fs src dst ≠ 0) := by
  refine ⟨cMain_eq_of_len fs argv h, ?_, ?_⟩
  · intro src dst
    cases hw : wacDecode (fs src) with
    | ok o =>
      simp [wac2wav_c, hw]
    | error e =>
      simp [wac2wav_c, hw]
  · intro src dst e hw
    simp [wac2wav_c, hw]

/-- C9 witness: the theorem applied to a three-element argument vector over
the example file, giving exit code 0. -/
theorem main_forwards_args_witness :
    cMain (fun _ => exFile) ["wac2wavcmd", "in.wac", "out.wav"] =
      some ("src: in.wac, dest: out.wav \n", 0) := by
  rw [(main_forwards_args (fun _ => exFile)
    ["wac2wavcmd", "in.wac", "out.wav"] (by decide)).1]
  set_option maxRecDepth 10000 in rfl

/-- C10: `main` performs no argument-count check: its behaviour is defined
exactly when at least two command-line arguments follow the program name
(with fewer, reading `argv[1]` or `argv[2]` leaves the model undefined and
no missing-argument diagnostic exists), and whenever defined it prints both
arguments to the error stream and exits with `wac2wav_c`'s value. -/
theorem main_no_argc_check (fs : String → List Nat) (argv : List String) :
    ((cMain fs argv).isSome ↔ 3 ≤ argv.length) ∧
    (∀ out, cMain fs argv = some out →
      out.1 = "src: " ++ argv.getD 1 "" ++ ", dest: " ++ argv.getD 2 "" ++
        " \n" ∧
      out.2 = wac2wav_c fs (argv.getD 1 "") (argv.getD 2 "")) := by
  constructor
  · constructor
    · intro hs
      by_contra hlt
      rw [cMain_eq_none_of_len fs argv (by omega)] at hs
      simp at hs
    · intro h3
      rw [cMain_eq_of_len fs argv h3]
      simp [h3]
  · intro out hout
    by_cases h3 : 3 ≤ argv.length
    · rw [cMain_eq_of_len fs argv h3] at hout
      obtain rfl : _ = out := Option.some_inj.mp hout
      exact ⟨rfl, rfl⟩
    · rw [cMain_eq_none_of_len fs argv (by omega)] at hout
      exact Option.noConfusion hout

/-- C10 witness: with only the program name, the result is undefined (and
conversely defined with three entries), matching the iff at length 1. -/
theorem main_no_argc_check_witness :
    ((cMain (fun _ => exFile) ["wac2wavcmd"]).isSome ↔
      3 ≤ (["wac2wavcmd"] : List String).length) :=
  (main_no_argc_check (fun _ => exFile) ["wac2wavcmd"]).1
